import Mathlib

/-!
# Verification of the CDF 9/7 wavelet core of SRNN-SZ

This file gives a shallow embedding of the CDF 9/7 discrete wavelet transform
core (`CDF97.h`) of the SRNN-SZ repository and proves the specified properties
of its level bookkeeping, lifting constants, gather/scatter permutation,
buffer-owner interface, and forward/inverse transform pipeline.

Machine integers (`size_t`) are modelled as `ℕ` (no overflow is reachable in
the functions below: they only divide and subtract), and `double` samples are
modelled as real numbers.
-/

namespace SRNN

/-- The return-type enumeration of the core (source `CDF97.h`, lines 19-37). -/
inductive RTNType where
  | Good
  | WrongDims
  | BitstreamWrongLen
  | IOError
  | InvalidParam
  | QzLevelTooBig
  | EmptyStream
  | BitBudgetMet
  | VersionMismatch
  | ZSTDMismatch
  | ZSTDError
  | SliceVolumeMismatch
  | QzModeMismatch
  | SetBPPBeforeDims
  | DataRangeNotSet
  | CompModeUnknown
  | Error
  deriving DecidableEq, Repr

/-- Embedding of `num_of_xforms` (source lines 45-54).  The source computes
`f = std::log2(double(len) / 8.0)` and returns `min(f < 0 ? 0 : (size_t)f + 1, 6)`.
For `len < 8` the logarithm is negative, otherwise the truncating cast of the
real `log2(len/8)` equals `Nat.log 2 (len / 8)`; the theorem for claim C2 below
proves this embedding equal to the real-logarithm formula. -/
def num_of_xforms (len : ℕ) : ℕ :=
  min (if len < 8 then 0 else Nat.log 2 (len / 8) + 1) 6

/-- Embedding of `num_of_partitions` (source lines 56-65): count iterations of
`len -= len / 2` while `len > 1`. -/
def num_of_partitions (len : ℕ) : ℕ :=
  if 1 < len then num_of_partitions (len - len / 2) + 1 else 0
termination_by len
decreasing_by omega

/-- Embedding of `calc_approx_detail_len` (source lines 67-77): starting from
`(orig_len, 0)`, iterate `high = low / 2; low = low - high` `lev` times and
return `(low, high)`. -/
def calc_approx_detail_len (orig_len : ℕ) : ℕ → ℕ × ℕ
  | 0 => (orig_len, 0)
  | lev + 1 =>
    let p := calc_approx_detail_len orig_len lev
    (p.1 - p.1 / 2, p.1 / 2)

/-- The body of the `num_of_partitions` loop: one halving step `L ↦ L - ⌊L/2⌋`. -/
def partStep (n : ℕ) : ℕ := n - n / 2

/-- The approximation-length recurrence of the spec: `a_0 = L`,
`a_{i+1} = a_i - ⌊a_i/2⌋`. -/
def aSeq (L : ℕ) : ℕ → ℕ
  | 0 => L
  | i + 1 => aSeq L i - aSeq L i / 2

/-- The detail-length recurrence of the spec: `d_0 = 0, d_{i+1} = ⌊a_i/2⌋`. -/
def dSeq (L : ℕ) : ℕ → ℕ
  | 0 => 0
  | i + 1 => aSeq L i / 2

lemma calc_eq_seq (L k : ℕ) : calc_approx_detail_len L k = (aSeq L k, dSeq L k) := by
  induction k with
  | zero => rfl
  | succ i ih => simp [calc_approx_detail_len, ih, aSeq, dSeq]

lemma aSeq_eq_iterate (L k : ℕ) : aSeq L k = partStep^[k] L := by
  induction k with
  | zero => rfl
  | succ i ih => rw [Function.iterate_succ_apply', aSeq, ih, partStep]

lemma aSeq_pos (L : ℕ) (hL : 1 ≤ L) (k : ℕ) : 1 ≤ aSeq L k := by
  induction k with
  | zero => exact hL
  | succ i ih => rw [aSeq]; omega

lemma num_of_partitions_eq_zero {L : ℕ} (h : L ≤ 1) : num_of_partitions L = 0 := by
  rw [num_of_partitions]
  simp [Nat.not_lt.mpr h]

lemma num_of_partitions_eq_succ {L : ℕ} (h : 1 < L) :
    num_of_partitions L = num_of_partitions (partStep L) + 1 := by
  rw [num_of_partitions]
  simp [h, partStep]

lemma iterate_partStep_le_one (L : ℕ) : partStep^[num_of_partitions L] L ≤ 1 := by
  induction L using Nat.strong_induction_on with
  | _ L ih =>
    by_cases h : 1 < L
    · rw [num_of_partitions_eq_succ h, Function.iterate_succ_apply]
      exact ih (partStep L) (by unfold partStep; omega)
    · rw [num_of_partitions_eq_zero (by omega)]
      simpa using (by omega : L ≤ 1)

lemma iterate_partStep_pos {L : ℕ} (hL : 1 ≤ L) (k : ℕ) : 1 ≤ partStep^[k] L := by
  induction k with
  | zero => simpa using hL
  | succ i ih =>
    rw [Function.iterate_succ_apply']
    simp only [partStep]
    omega

lemma iterate_partStep_gt_one (L : ℕ) :
    ∀ j, j < num_of_partitions L → 1 < partStep^[j] L := by
  induction L using Nat.strong_induction_on with
  | _ L ih =>
    intro j hj
    by_cases h : 1 < L
    · match j with
      | 0 => simpa using h
      | j' + 1 =>
        rw [num_of_partitions_eq_succ h] at hj
        rw [Function.iterate_succ_apply]
        exact ih (partStep L) (by unfold partStep; omega) j' (by omega)
    · rw [num_of_partitions_eq_zero (by omega)] at hj
      omega

/-- **C2.** For every axis length `L ≥ 1` the number of dyadic transform levels
`num_of_xforms L` equals `min 6 (max 0 (⌊log₂(L/8)⌋ + 1))`; it is `0` for every
axis shorter than 8 (in particular `L = 7`), equals `6` for every `L ≥ 256`
(in particular `L = 10^6`), and never exceeds `6`. -/
theorem C2_num_of_xforms_formula (L : ℕ) (hL : 1 ≤ L) :
    (num_of_xforms L : ℤ) = min 6 (max 0 (⌊Real.logb 2 ((L : ℝ) / 8)⌋ + 1)) ∧
    (∀ M : ℕ, M < 8 → num_of_xforms M = 0) ∧ num_of_xforms 7 = 0 ∧
    (∀ M : ℕ, 256 ≤ M → num_of_xforms M = 6) ∧ num_of_xforms (10 ^ 6) = 6 ∧
    (∀ M : ℕ, num_of_xforms M ≤ 6) := by
  have hsmall : ∀ M : ℕ, M < 8 → num_of_xforms M = 0 := by
    intro M hM
    simp [num_of_xforms, hM]
  have hlog_div : ∀ M : ℕ, 8 ≤ M → Nat.log 2 (M / 8) = Nat.log 2 M - 3 := by
    intro M _
    have h8 : M / 8 = M / 2 / 2 / 2 := by omega
    rw [h8, Nat.log_div_base, Nat.log_div_base, Nat.log_div_base]
    omega
  have hlog_ge : ∀ M : ℕ, 8 ≤ M → 3 ≤ Nat.log 2 M := by
    intro M hM
    exact (Nat.pow_le_iff_le_log (by norm_num) (by omega)).mp (by norm_num; omega)
  have hbig : ∀ M : ℕ, 256 ≤ M → num_of_xforms M = 6 := by
    intro M hM
    have h5 : 8 ≤ Nat.log 2 M :=
      (Nat.pow_le_iff_le_log (by norm_num) (by omega)).mp (by norm_num; omega)
    have := hlog_div M (by omega)
    simp only [num_of_xforms, if_neg (by omega : ¬ M < 8)]
    omega
  have hle : ∀ M : ℕ, num_of_xforms M ≤ 6 := fun M => min_le_right _ _
  refine ⟨?_, hsmall, hsmall 7 (by norm_num), hbig, hbig (10 ^ 6) (by norm_num), hle⟩
  by_cases h8 : L < 8
  · -- small case: the real logarithm is negative, both sides are 0
    have hx0 : (0 : ℝ) < (L : ℝ) / 8 := by positivity
    have hx1 : (L : ℝ) / 8 < 1 := by
      rw [div_lt_one (by norm_num)]
      exact_mod_cast (by omega : L < 8)
    have hneg : Real.logb 2 ((L : ℝ) / 8) < 0 := Real.logb_neg (by norm_num) hx0 hx1
    have hfl : ⌊Real.logb 2 ((L : ℝ) / 8)⌋ < 0 := by
      rw [Int.floor_lt]
      exact_mod_cast hneg
    rw [hsmall L h8]
    omega
  · -- large case: ⌊log₂(L/8)⌋ = Nat.log 2 L - 3
    push_neg at h8
    have hLpos : (0 : ℝ) < (L : ℝ) := by exact_mod_cast (by omega : 0 < L)
    have hlogb8 : Real.logb 2 (8 : ℝ) = 3 := by
      rw [show (8 : ℝ) = 2 ^ (3 : ℕ) by norm_num, Real.logb_pow,
        Real.logb_self_eq_one (by norm_num : (1 : ℝ) < 2)]
      norm_num
    have hdiv : Real.logb 2 ((L : ℝ) / 8) = Real.logb 2 (L : ℝ) - 3 := by
      rw [Real.logb_div (ne_of_gt hLpos) (by norm_num), hlogb8]
    have hfloor : ⌊Real.logb 2 ((L : ℝ) : ℝ)⌋ = (Nat.log 2 L : ℤ) := by
      have h2 : ((2 : ℕ) : ℝ) = (2 : ℝ) := by norm_num
      rw [← h2, Real.floor_logb_natCast (le_of_lt hLpos), Int.log_natCast]
    have h3le : 3 ≤ Nat.log 2 L := hlog_ge L h8
    have hnat : Nat.log 2 (L / 8) = Nat.log 2 L - 3 := hlog_div L h8
    rw [hdiv]
    rw [show Real.logb 2 ((L : ℝ)) - 3 = Real.logb 2 ((L : ℝ)) + (-3 : ℤ) by push_cast; ring]
    rw [Int.floor_add_int, hfloor]
    simp only [num_of_xforms, if_neg (by omega : ¬ L < 8), hnat]
    omega

/-- Witness for C2 at `L = 16`. -/
theorem C2_witness :
    (num_of_xforms 16 : ℤ) = min 6 (max 0 (⌊Real.logb 2 ((16 : ℝ) / 8)⌋ + 1)) ∧
    (∀ M : ℕ, M < 8 → num_of_xforms M = 0) ∧ num_of_xforms 7 = 0 ∧
    (∀ M : ℕ, 256 ≤ M → num_of_xforms M = 6) ∧ num_of_xforms (10 ^ 6) = 6 ∧
    (∀ M : ℕ, num_of_xforms M ≤ 6) :=
  C2_num_of_xforms_formula 16 (by norm_num)

/-- **C3.** `calc_approx_detail_len L k` returns exactly the pair `(a_k, d_k)`
of the spec recurrence `a_0 = L, d_0 = 0, d_{i+1} = ⌊a_i/2⌋,
a_{i+1} = a_i - d_{i+1}`; moreover `a_{i+1} = ⌈a_i/2⌉`, and one analysis level
splits an axis of length `L` into a low-pass part of length `⌈L/2⌉` and a
high-pass part of length `⌊L/2⌋`. -/
theorem C3_calc_approx_detail_len (L k : ℕ) :
    calc_approx_detail_len L k = (aSeq L k, dSeq L k) ∧
    (∀ i, aSeq L (i + 1) = (aSeq L i + 1) / 2) ∧
    calc_approx_detail_len L 1 = ((L + 1) / 2, L / 2) := by
  refine ⟨calc_eq_seq L k, fun i => by rw [aSeq]; omega, ?_⟩
  have h1 : aSeq L 1 = L - L / 2 := rfl
  have h2 : dSeq L 1 = L / 2 := rfl
  rw [calc_eq_seq, h1, h2, show L - L / 2 = (L + 1) / 2 by omega]

/-- **C4.** `num_of_partitions L` is exactly the number of iterations of the
step `L ↦ L - ⌊L/2⌋` needed to first reach a value `≤ 1`: iterating the step
`num_of_partitions L` times from `L` yields a value `≤ 1`, every shorter
iteration stays `> 1`, and the count is `0` for `L ≤ 1`. -/
theorem C4_num_of_partitions_iteration (L : ℕ) :
    partStep^[num_of_partitions L] L ≤ 1 ∧
    (∀ j, j < num_of_partitions L → 1 < partStep^[j] L) ∧
    (L ≤ 1 → num_of_partitions L = 0) := by
  exact ⟨iterate_partStep_le_one L, iterate_partStep_gt_one L,
    fun h => num_of_partitions_eq_zero h⟩

/-- Witness for C4 at `L = 5` (where `num_of_partitions 5 = 3`). -/
theorem C4_witness :
    partStep^[num_of_partitions 5] 5 ≤ 1 ∧ 1 < partStep^[2] 5 ∧
    num_of_partitions 1 = 0 := by
  have h5 : num_of_partitions 5 = 3 := by
    rw [num_of_partitions]
    norm_num
    rw [num_of_partitions]
    norm_num
    rw [num_of_partitions]
    norm_num
    rw [num_of_partitions]
    norm_num
  exact ⟨(C4_num_of_partitions_iteration 5).1,
    (C4_num_of_partitions_iteration 5).2.1 2 (by rw [h5]; norm_num),
    (C4_num_of_partitions_iteration 1).2.2 (by norm_num)⟩

/-- **C9.** `num_of_partitions` terminates on every input: the loop body
strictly decreases `len` whenever the guard `1 < len` holds (so the recursion
in the embedding is well-founded), and the inputs `0` and `1` never enter the
loop and return `0`. -/
theorem C9_num_of_partitions_terminates :
    (∀ n : ℕ, 1 < n → partStep n < n) ∧
    num_of_partitions 0 = 0 ∧ num_of_partitions 1 = 0 := by
  refine ⟨fun n hn => by simp only [partStep]; omega, ?_, ?_⟩
  · exact num_of_partitions_eq_zero (by norm_num)
  · exact num_of_partitions_eq_zero (by norm_num)

/-- Witness for C9 at `n = 2`. -/
theorem C9_witness : partStep 2 < 2 ∧ num_of_partitions 0 = 0 :=
  ⟨C9_num_of_partitions_terminates.1 2 (by norm_num),
    C9_num_of_partitions_terminates.2.1⟩

/-- **C10.** For every axis length `L ≥ 1`: zero levels leave `(L, 0)`; the
low-pass length stays `≥ 1` at every level; after exactly
`num_of_partitions L` levels the low-pass length is `1`; and length `1` is a
fixed point: `calc_approx_detail_len 1 k = (1, 0)` for every `k`. -/
theorem C10_calc_approx_partitions (L : ℕ) (hL : 1 ≤ L) :
    calc_approx_detail_len L 0 = (L, 0) ∧
    (∀ k, 1 ≤ (calc_approx_detail_len L k).1) ∧
    (calc_approx_detail_len L (num_of_partitions L)).1 = 1 ∧
    (∀ k, calc_approx_detail_len 1 k = (1, 0)) := by
  have hlow : ∀ k, (calc_approx_detail_len L k).1 = partStep^[k] L := by
    intro k
    rw [calc_eq_seq]
    exact aSeq_eq_iterate L k
  refine ⟨rfl, ?_, ?_, ?_⟩
  · intro k
    rw [calc_eq_seq]
    exact aSeq_pos L hL k
  · rw [hlow]
    have h1 := iterate_partStep_le_one L
    have h2 := iterate_partStep_pos hL (num_of_partitions L)
    omega
  · intro k
    induction k with
    | zero => rfl
    | succ i ih => simp [calc_approx_detail_len, ih]

/-- Witness for C10 at `L = 5`. -/
theorem C10_witness : (calc_approx_detail_len 5 (num_of_partitions 5)).1 = 1 :=
  (C10_calc_approx_partitions 5 (by norm_num)).2.2.1

namespace CDF97

/-! ## Lifting constants (source lines 188-199)

The member constants of the `CDF97` class.  `double` values are modelled as
real numbers; the decimal tap values are exact decimal fractions. -/

/-- The paper filter-bank coefficients `h[0..4]` (source lines 188-189). -/
noncomputable def h : Fin 5 → ℝ :=
  ![0.602949018236, 0.266864118443, -0.078223266529, -0.016864118443,
    0.026748757411]

/-- `r0` (source line 190). -/
noncomputable def r0 : ℝ := h 0 - 2 * h 4 * h 1 / h 3

/-- `r1` (source line 191). -/
noncomputable def r1 : ℝ := h 2 - h 4 - h 4 * h 1 / h 3

/-- `s0` (source line 192). -/
noncomputable def s0 : ℝ := h 1 - h 3 - h 3 * r0 / r1

/-- `t0` (source line 193). -/
noncomputable def t0 : ℝ := h 0 - 2 * (h 2 - h 4)

/-- `ALPHA` (source line 194). -/
noncomputable def ALPHA : ℝ := h 4 / h 3

/-- `BETA` (source line 195). -/
noncomputable def BETA : ℝ := h 3 / r1

/-- `GAMMA` (source line 196). -/
noncomputable def GAMMA : ℝ := r1 / s0

/-- `DELTA` (source line 197). -/
noncomputable def DELTA : ℝ := s0 / t0

/-- `EPSILON` (source line 198). -/
noncomputable def EPSILON : ℝ := Real.sqrt 2 * t0

/-- `INV_EPSILON` (source line 199). -/
noncomputable def INV_EPSILON : ℝ := 1 / EPSILON

lemma h_0 : h 0 = 0.602949018236 := rfl

lemma h_1 : h 1 = 0.266864118443 := rfl

lemma h_2 : h 2 = -0.078223266529 := rfl

lemma h_3 : h 3 = -0.016864118443 := rfl

lemma h_4 : h 4 = 0.026748757411 := rfl

lemma t0_val : t0 = 0.812893066116 := by
  rw [t0, h_0, h_2, h_4]
  norm_num

lemma t0_pos : 0 < t0 := by rw [t0_val]; norm_num

lemma epsilon_irrational : Irrational EPSILON := by
  rw [EPSILON, t0_val, show (0.812893066116 : ℝ) = ((0.812893066116 : ℚ) : ℝ) by norm_num]
  exact irrational_sqrt_two.mul_rat (by norm_num)

lemma epsilon_pos : 0 < EPSILON := by
  rw [EPSILON]
  have := Real.sqrt_pos.mpr (by norm_num : (0 : ℝ) < 2)
  have := t0_pos
  positivity

lemma epsilon_mul_inv : EPSILON * INV_EPSILON = 1 := by
  rw [INV_EPSILON, mul_one_div]
  exact div_self (ne_of_gt epsilon_pos)

/-- **C5.** The lifting constants of the primary transform path are exactly
the closed-form values derived from the filter taps
`h = (0.602949018236, 0.266864118443, -0.078223266529, -0.016864118443,
0.026748757411)` — `r0 = h0 - 2 h4 h1 / h3`, `r1 = h2 - h4 - h4 h1 / h3`,
`s0 = h1 - h3 - h3 r0 / r1`, `t0 = h0 - 2 (h2 - h4)`, `ALPHA = h4/h3`,
`BETA = h3/r1`, `GAMMA = r1/s0`, `DELTA = s0/t0`, `EPSILON = √2 · t0`,
`INV_EPSILON = 1/EPSILON` — and each of the five lifting coefficients differs
from the corresponding rounded QccPack constant (source lines 203-207), so the
rounded set is not the one used; the constants are fixed values of the class
(initialization-time member initializers), not recomputed per call. -/
theorem C5_lifting_constants :
    (h 0 = 0.602949018236 ∧ h 1 = 0.266864118443 ∧ h 2 = -0.078223266529 ∧
      h 3 = -0.016864118443 ∧ h 4 = 0.026748757411) ∧
    (r0 = h 0 - 2 * h 4 * h 1 / h 3 ∧ r1 = h 2 - h 4 - h 4 * h 1 / h 3 ∧
      s0 = h 1 - h 3 - h 3 * r0 / r1 ∧ t0 = h 0 - 2 * (h 2 - h 4)) ∧
    (ALPHA = h 4 / h 3 ∧ BETA = h 3 / r1 ∧ GAMMA = r1 / s0 ∧
      DELTA = s0 / t0 ∧ EPSILON = Real.sqrt 2 * t0 ∧
      INV_EPSILON = 1 / EPSILON) ∧
    (ALPHA ≠ -1.58615986717275 ∧ BETA ≠ -0.05297864003258 ∧
      GAMMA ≠ 0.88293362717904 ∧ DELTA ≠ 0.44350482244527 ∧
      EPSILON ≠ 1.14960430535816) := by
  refine ⟨⟨h_0, h_1, h_2, h_3, h_4⟩, ⟨rfl, rfl, rfl, rfl⟩,
    ⟨rfl, rfl, rfl, rfl, rfl, rfl⟩, ?_, ?_, ?_, ?_, ?_⟩
  · rw [ALPHA, h_3, h_4]
    norm_num
  · rw [BETA, r1, h_1, h_2, h_3, h_4]
    norm_num
  · rw [GAMMA, r1, s0, r0, r1, h_0, h_1, h_2, h_3, h_4]
    norm_num
  · rw [DELTA, s0, r0, r1, t0, h_0, h_1, h_2, h_3, h_4]
    norm_num
  · rw [show (1.14960430535816 : ℝ) = ((1.14960430535816 : ℚ) : ℝ) by norm_num]
    exact epsilon_irrational.ne_rat _

/-! ## The lifting kernels

The four QccPack kernels (`QccWAVCDF97AnalysisSymmetricEvenEven`,
`...OddEven`, and their synthesis counterparts, declared at source lines
158-161) are not part of the sources provided; they are modelled from the
spec (§4.1) in the polyphase representation: a signal `s[0..n-1]` is the
interleaving of its even-indexed samples `e` and odd-indexed samples `o`,
and each lifting step adds to one parity a stencil of the other parity.
A 1D run is modelled as a function `ℕ → ℝ`; an operation on a run of
length `L` only reads and writes indices `< L`. -/

/-- A 1D run of samples. -/
def Sig : Type := ℕ → ℝ

/-- Number of even indices (low-pass samples) in a run of length `L`:
`⌈L/2⌉`. -/
def ecOf (L : ℕ) : ℕ := L - L / 2

/-- Number of odd indices (high-pass samples) in a run of length `L`:
`⌊L/2⌋`. -/
def ocOf (L : ℕ) : ℕ := L / 2

/-- A predict lifting step: add the stencil `P e` to the first `oc` odd-parity
samples. -/
def predictAdd (oc : ℕ) (P : Sig → Sig) (e o : Sig) : Sig :=
  fun i => if i < oc then o i + P e i else o i

/-- An update lifting step: add the stencil `U o` to the first `ec` even-parity
samples. -/
def updateAdd (ec : ℕ) (U : Sig → Sig) (o e : Sig) : Sig :=
  fun i => if i < ec then e i + U o i else e i

/-- The scaling step: multiply the first `n` samples by `c`. -/
def scaleRun (n : ℕ) (c : ℝ) (f : Sig) : Sig :=
  fun i => if i < n then c * f i else f i

lemma predictAdd_inv (oc : ℕ) (P : Sig → Sig) (e o : Sig) :
    predictAdd oc (fun ee i => -(P ee i)) e (predictAdd oc P e o) = o := by
  funext i
  simp only [predictAdd]
  by_cases h : i < oc <;> simp [h]

lemma updateAdd_inv (ec : ℕ) (U : Sig → Sig) (o e : Sig) :
    updateAdd ec (fun oo i => -(U oo i)) o (updateAdd ec U o e) = e := by
  funext i
  simp only [updateAdd]
  by_cases h : i < ec <;> simp [h]

lemma scaleRun_inv (n : ℕ) (c c' : ℝ) (h : c' * c = 1) (f : Sig) :
    scaleRun n c' (scaleRun n c f) = f := by
  funext i
  simp only [scaleRun]
  by_cases hi : i < n
  · simp only [if_pos hi, ← mul_assoc, h, one_mul]
  · simp [hi]

/-- Predict stencil of the even-length (`n = 2m`) variants (spec §4.1, even
analysis step 1): `α·(s[2i] + s[2i+2])` for `i ≤ m-2`; the last odd sample is
updated with the mirrored neighbor, `2·α·s[n-2]`. -/
def stencilPE (c : ℝ) (m : ℕ) (e : Sig) : Sig :=
  fun i => if i + 1 ≤ m - 1 then c * (e i + e (i + 1)) else 2 * c * e (m - 1)

/-- Update stencil of the even-length variants (spec §4.1, even analysis step
2): `2·β·s[1]` at the first even sample, `β·(s[2i-1] + s[2i+1])` for
`i = 1..m-1`. -/
def stencilUE (c : ℝ) (o : Sig) : Sig :=
  fun i => if i = 0 then 2 * c * o 0 else c * (o (i - 1) + o i)

/-- Predict stencil of the odd-length (`n = 2m+1`) variants (spec §4.1, odd
analysis step 1): `α·(s[2i] + s[2i+2])` for `i = 0..m-1`, no tail correction. -/
def stencilPO (c : ℝ) (e : Sig) : Sig :=
  fun i => c * (e i + e (i + 1))

/-- Update stencil of the odd-length variants (spec §4.1, odd analysis step 2):
`2·β·s[1]` at the first even sample, `β·(s[2i-1] + s[2i+1])` for `i = 1..m-1`,
`2·β·s[2m-1]` at the last even sample. -/
def stencilUO (c : ℝ) (m : ℕ) (o : Sig) : Sig :=
  fun i =>
    if i = 0 then 2 * c * o 0
    else if i = m then 2 * c * o (m - 1)
    else c * (o (i - 1) + o i)

/-- Modelled from the spec: `QccWAVCDF97AnalysisSymmetricEvenEven` (§4.1,
even-length analysis) in the polyphase representation, signal length `2m`:
four lifting steps with `ALPHA, BETA, GAMMA, DELTA`, then scale evens by
`INV_EPSILON` and odds by `-EPSILON`. -/
noncomputable def evenKernelA (m : ℕ) (e o : Sig) : Sig × Sig :=
  let o1 := predictAdd m (stencilPE CDF97.ALPHA m) e o
  let e1 := updateAdd m (stencilUE CDF97.BETA) o1 e
  let o2 := predictAdd m (stencilPE CDF97.GAMMA m) e1 o1
  let e2 := updateAdd m (stencilUE CDF97.DELTA) o2 e1
  (scaleRun m CDF97.INV_EPSILON e2, scaleRun m (-CDF97.EPSILON) o2)

/-- Modelled from the spec: `QccWAVCDF97SynthesisSymmetricEvenEven` (§4.1,
synthesis): unscale, then undo δ, γ, β, α with flipped signs. -/
noncomputable def evenKernelS (m : ℕ) (e o : Sig) : Sig × Sig :=
  let e2 := scaleRun m CDF97.EPSILON e
  let o2 := scaleRun m (-CDF97.INV_EPSILON) o
  let e1 := updateAdd m (fun oo i => -(stencilUE CDF97.DELTA oo i)) o2 e2
  let o1 := predictAdd m (fun ee i => -(stencilPE CDF97.GAMMA m ee i)) e1 o2
  let e0 := updateAdd m (fun oo i => -(stencilUE CDF97.BETA oo i)) o1 e1
  let o0 := predictAdd m (fun ee i => -(stencilPE CDF97.ALPHA m ee i)) e0 o1
  (e0, o0)

/-- Modelled from the spec: `QccWAVCDF97AnalysisSymmetricOddEven` (§4.1,
odd-length analysis), signal length `2m+1` (`m+1` even samples, `m` odd
samples). -/
noncomputable def oddKernelA (m : ℕ) (e o : Sig) : Sig × Sig :=
  let o1 := predictAdd m (stencilPO CDF97.ALPHA) e o
  let e1 := updateAdd (m + 1) (stencilUO CDF97.BETA m) o1 e
  let o2 := predictAdd m (stencilPO CDF97.GAMMA) e1 o1
  let e2 := updateAdd (m + 1) (stencilUO CDF97.DELTA m) o2 e1
  (scaleRun (m + 1) CDF97.INV_EPSILON e2, scaleRun m (-CDF97.EPSILON) o2)

/-- Modelled from the spec: `QccWAVCDF97SynthesisSymmetricOddEven` (§4.1,
synthesis, odd length). -/
noncomputable def oddKernelS (m : ℕ) (e o : Sig) : Sig × Sig :=
  let e2 := scaleRun (m + 1) CDF97.EPSILON e
  let o2 := scaleRun m (-CDF97.INV_EPSILON) o
  let e1 := updateAdd (m + 1) (fun oo i => -(stencilUO CDF97.DELTA m oo i)) o2 e2
  let o1 := predictAdd m (fun ee i => -(stencilPO CDF97.GAMMA ee i)) e1 o2
  let e0 := updateAdd (m + 1) (fun oo i => -(stencilUO CDF97.BETA m oo i)) o1 e1
  let o0 := predictAdd m (fun ee i => -(stencilPO CDF97.ALPHA ee i)) e0 o1
  (e0, o0)

lemma neg_eps_mul : (-CDF97.INV_EPSILON) * (-CDF97.EPSILON) = 1 := by
  rw [neg_mul_neg, mul_comm]
  exact CDF97.epsilon_mul_inv

lemma eps_mul : CDF97.EPSILON * CDF97.INV_EPSILON = 1 := CDF97.epsilon_mul_inv

lemma evenKernel_inv (m : ℕ) (e o : Sig) :
    evenKernelS m (evenKernelA m e o).1 (evenKernelA m e o).2 = (e, o) := by
  simp only [evenKernelA, evenKernelS]
  rw [scaleRun_inv m _ _ eps_mul, scaleRun_inv m _ _ neg_eps_mul,
    updateAdd_inv, predictAdd_inv, updateAdd_inv, predictAdd_inv]

lemma oddKernel_inv (m : ℕ) (e o : Sig) :
    oddKernelS m (oddKernelA m e o).1 (oddKernelA m e o).2 = (e, o) := by
  simp only [oddKernelA, oddKernelS]
  rw [scaleRun_inv (m + 1) _ _ eps_mul, scaleRun_inv m _ _ neg_eps_mul,
    updateAdd_inv, predictAdd_inv, updateAdd_inv, predictAdd_inv]

/-- The length-parity dispatch to the analysis kernels, in polyphase form. -/
noncomputable def liftKernelA (L : ℕ) (p : Sig × Sig) : Sig × Sig :=
  if L % 2 = 0 then evenKernelA (L / 2) p.1 p.2 else oddKernelA (L / 2) p.1 p.2

/-- The length-parity dispatch to the synthesis kernels, in polyphase form. -/
noncomputable def liftKernelS (L : ℕ) (p : Sig × Sig) : Sig × Sig :=
  if L % 2 = 0 then evenKernelS (L / 2) p.1 p.2 else oddKernelS (L / 2) p.1 p.2

lemma liftKernel_inv (L : ℕ) (p : Sig × Sig) :
    liftKernelS L (liftKernelA L p) = p := by
  simp only [liftKernelA, liftKernelS]
  by_cases h : L % 2 = 0 <;> simp [h, evenKernel_inv, oddKernel_inv]

/-! ### Locality of the synthesis kernels

An operation on a run of length `L` must read only indices `< L` of its
input; this is what lets the in-place pipeline act on a prefix of a longer
buffer.  `EqB n f g` says two runs agree below `n`. -/

/-- Two runs agree at every index below `n`. -/
def EqB (n : ℕ) (f g : Sig) : Prop := ∀ i, i < n → f i = g i

lemma predictAdd_congr (oc : ℕ) (P : Sig → Sig) {e e' o o' : Sig}
    (hs : EqB oc (P e) (P e')) (ho : EqB oc o o') :
    EqB oc (predictAdd oc P e o) (predictAdd oc P e' o') := by
  intro i hi
  simp only [predictAdd, if_pos hi, ho i hi, hs i hi]

lemma updateAdd_congr (ec : ℕ) (U : Sig → Sig) {o o' e e' : Sig}
    (hs : EqB ec (U o) (U o')) (he : EqB ec e e') :
    EqB ec (updateAdd ec U o e) (updateAdd ec U o' e') := by
  intro i hi
  simp only [updateAdd, if_pos hi, he i hi, hs i hi]

lemma scaleRun_congr (n : ℕ) (c : ℝ) {f f' : Sig} (hf : EqB n f f') :
    EqB n (scaleRun n c f) (scaleRun n c f') := by
  intro i hi
  simp only [scaleRun, if_pos hi, hf i hi]

lemma stencilPE_congr (c : ℝ) (m : ℕ) {e e' : Sig} (he : EqB m e e') :
    EqB m (stencilPE c m e) (stencilPE c m e') := by
  intro i hi
  simp only [stencilPE]
  by_cases h : i + 1 ≤ m - 1
  · simp only [if_pos h, he i hi, he (i + 1) (by omega : i + 1 < m)]
  · simp only [if_neg h, he (m - 1) (by omega : m - 1 < m)]

lemma stencilUE_congr (c : ℝ) (m : ℕ) {o o' : Sig} (ho : EqB m o o') :
    EqB m (stencilUE c o) (stencilUE c o') := by
  intro i hi
  simp only [stencilUE]
  by_cases h : i = 0
  · simp only [if_pos h, ho 0 (by omega : 0 < m)]
  · simp only [if_neg h, ho (i - 1) (by omega : i - 1 < m), ho i hi]

lemma stencilPO_congr (c : ℝ) (m : ℕ) {e e' : Sig} (he : EqB (m + 1) e e') :
    EqB m (stencilPO c e) (stencilPO c e') := by
  intro i hi
  simp only [stencilPO]
  rw [he i (by omega), he (i + 1) (by omega)]

lemma stencilUO_congr (c : ℝ) (m : ℕ) (hm : 1 ≤ m) {o o' : Sig}
    (ho : EqB m o o') :
    EqB (m + 1) (stencilUO c m o) (stencilUO c m o') := by
  intro i hi
  simp only [stencilUO]
  by_cases h0 : i = 0
  · simp only [if_pos h0, ho 0 (by omega : 0 < m)]
  · simp only [if_neg h0]
    by_cases hn : i = m
    · simp only [if_pos hn, ho (m - 1) (by omega : m - 1 < m)]
    · simp only [if_neg hn, ho (i - 1) (by omega : i - 1 < m),
        ho i (by omega : i < m)]

lemma neg_stencil_congr {b : ℕ} {P : Sig → Sig} {e e' : Sig}
    (hs : EqB b (P e) (P e')) :
    EqB b (fun i => -(P e i)) (fun i => -(P e' i)) := by
  intro i hi
  simp only [hs i hi]

lemma evenKernelS_congr (m : ℕ) {e e' o o' : Sig}
    (he : EqB m e e') (ho : EqB m o o') :
    EqB m (evenKernelS m e o).1 (evenKernelS m e' o').1 ∧
    EqB m (evenKernelS m e o).2 (evenKernelS m e' o').2 := by
  simp only [evenKernelS]
  have h2 := scaleRun_congr m CDF97.EPSILON he
  have h3 := scaleRun_congr m (-CDF97.INV_EPSILON) ho
  have h4 := updateAdd_congr m (fun oo i => -(stencilUE CDF97.DELTA oo i))
    (neg_stencil_congr (stencilUE_congr CDF97.DELTA m h3)) h2
  have h5 := predictAdd_congr m (fun ee i => -(stencilPE CDF97.GAMMA m ee i))
    (neg_stencil_congr (stencilPE_congr CDF97.GAMMA m h4)) h3
  have h6 := updateAdd_congr m (fun oo i => -(stencilUE CDF97.BETA oo i))
    (neg_stencil_congr (stencilUE_congr CDF97.BETA m h5)) h4
  have h7 := predictAdd_congr m (fun ee i => -(stencilPE CDF97.ALPHA m ee i))
    (neg_stencil_congr (stencilPE_congr CDF97.ALPHA m h6)) h5
  exact ⟨h6, h7⟩

lemma oddKernelS_congr (m : ℕ) (hm : 1 ≤ m) {e e' o o' : Sig}
    (he : EqB (m + 1) e e') (ho : EqB m o o') :
    EqB (m + 1) (oddKernelS m e o).1 (oddKernelS m e' o').1 ∧
    EqB m (oddKernelS m e o).2 (oddKernelS m e' o').2 := by
  simp only [oddKernelS]
  have h2 := scaleRun_congr (m + 1) CDF97.EPSILON he
  have h3 := scaleRun_congr m (-CDF97.INV_EPSILON) ho
  have h4 := updateAdd_congr (m + 1) (fun oo i => -(stencilUO CDF97.DELTA m oo i))
    (neg_stencil_congr (stencilUO_congr CDF97.DELTA m hm h3)) h2
  have h5 := predictAdd_congr m (fun ee i => -(stencilPO CDF97.GAMMA ee i))
    (neg_stencil_congr (stencilPO_congr CDF97.GAMMA m h4)) h3
  have h6 := updateAdd_congr (m + 1) (fun oo i => -(stencilUO CDF97.BETA m oo i))
    (neg_stencil_congr (stencilUO_congr CDF97.BETA m hm h5)) h4
  have h7 := predictAdd_congr m (fun ee i => -(stencilPO CDF97.ALPHA ee i))
    (neg_stencil_congr (stencilPO_congr CDF97.ALPHA m h6)) h5
  exact ⟨h6, h7⟩

lemma liftKernelS_congr (L : ℕ) (hL : 2 ≤ L) (p p' : Sig × Sig)
    (he : EqB (ecOf L) p.1 p'.1) (ho : EqB (ocOf L) p.2 p'.2) :
    EqB (ecOf L) (liftKernelS L p).1 (liftKernelS L p').1 ∧
    EqB (ocOf L) (liftKernelS L p).2 (liftKernelS L p').2 := by
  simp only [liftKernelS]
  by_cases h : L % 2 = 0
  · have hec : ecOf L = L / 2 := by simp only [ecOf]; omega
    have hoc : ocOf L = L / 2 := by simp only [ocOf]
    simp only [if_pos h]
    rw [hec] at he ⊢
    rw [hoc] at ho ⊢
    exact evenKernelS_congr (L / 2) he ho
  · have hec : ecOf L = L / 2 + 1 := by simp only [ecOf]; omega
    have hoc : ocOf L = L / 2 := by simp only [ocOf]
    simp only [if_neg h]
    rw [hec] at he ⊢
    rw [hoc] at ho ⊢
    exact oddKernelS_congr (L / 2) (by omega) he ho

/-! ### The one-level 1D pass (spec §4.3) -/

/-- Modelled from the spec: one level of 1D analysis on a run of length `L`
(`m_dwt1d_one_level`, declared at source line 140): apply the
length-parity-appropriate lifting kernel on the interleaved run, then gather
low-pass (even-parity) samples to `[0, ⌈L/2⌉)` and high-pass (odd-parity)
samples to `[⌈L/2⌉, L)`; `L ≤ 1` is a no-op. -/
noncomputable def dwt1d_one_level (L : ℕ) (f : Sig) : Sig :=
  if L ≤ 1 then f
  else
    let p := liftKernelA L (fun i => f (2 * i), fun i => f (2 * i + 1))
    fun i => if i < ecOf L then p.1 i else if i < L then p.2 (i - ecOf L) else f i

/-- Modelled from the spec: one level of 1D synthesis on a run of length `L`
(`m_idwt1d_one_level`, declared at source line 141): scatter the
`[low | high]` halves back to interleaved order, then apply the synthesis
kernel; `L ≤ 1` is a no-op. -/
noncomputable def idwt1d_one_level (L : ℕ) (f : Sig) : Sig :=
  if L ≤ 1 then f
  else
    let p := liftKernelS L (fun i => f i, fun i => f (ecOf L + i))
    fun i =>
      if i < L then (if i % 2 = 0 then p.1 (i / 2) else p.2 (i / 2)) else f i

/-- One 1D synthesis level exactly undoes one 1D analysis level, at every
length. -/
lemma idwt1d_one_level_inv (L : ℕ) (f : Sig) :
    idwt1d_one_level L (dwt1d_one_level L f) = f := by
  by_cases hL : L ≤ 1
  · simp only [dwt1d_one_level, idwt1d_one_level, if_pos hL]
  · have hL2 : 2 ≤ L := by omega
    have hsum : ecOf L + ocOf L = L := by simp only [ecOf, ocOf]; omega
    have hecle : ecOf L ≤ L := by simp only [ecOf]; omega
    simp only [dwt1d_one_level, idwt1d_one_level, if_neg hL]
    set ev : Sig := fun i => f (2 * i) with hev
    set od : Sig := fun i => f (2 * i + 1) with hod
    set E : Sig := (liftKernelA L (ev, od)).1 with hE
    set O : Sig := (liftKernelA L (ev, od)).2 with hO
    set g : Sig := fun i =>
      if i < ecOf L then E i else if i < L then O (i - ecOf L) else f i with hg
    have hsplit1 : EqB (ecOf L) (fun i => g i) E := by
      intro i hi
      simp only [hg, if_pos hi]
    have hsplit2 : EqB (ocOf L) (fun i => g (ecOf L + i)) O := by
      intro i hi
      simp only [hg, if_neg (by omega : ¬ ecOf L + i < ecOf L),
        if_pos (by omega : ecOf L + i < L)]
      congr 1
      omega
    have hcongr := liftKernelS_congr L hL2
      (fun i => g i, fun i => g (ecOf L + i)) (E, O) hsplit1 hsplit2
    have hinv : liftKernelS L (E, O) = (ev, od) := liftKernel_inv L (ev, od)
    funext i
    by_cases hiL : i < L
    · rw [if_pos hiL]
      by_cases hpar : i % 2 = 0
      · rw [if_pos hpar]
        have hhalf : i / 2 < ecOf L := by simp only [ecOf]; omega
        rw [hcongr.1 (i / 2) hhalf, hinv]
        show ev (i / 2) = f i
        rw [hev]
        show f (2 * (i / 2)) = f i
        congr 1
        omega
      · rw [if_neg hpar]
        have hhalf : i / 2 < ocOf L := by simp only [ocOf]; omega
        rw [hcongr.2 (i / 2) hhalf, hinv]
        show od (i / 2) = f i
        rw [hod]
        show f (2 * (i / 2) + 1) = f i
        congr 1
        omega
    · rw [if_neg hiL]
      simp only [hg, if_neg (by omega : ¬ i < ecOf L), if_neg hiL]

/-- The synthesis pass reads only indices `< L` and writes only
indices `< L`. -/
lemma idwt1d_one_level_local (L : ℕ) :
    (∀ f g, EqB L f g → EqB L (idwt1d_one_level L f) (idwt1d_one_level L g)) ∧
    (∀ f i, L ≤ i → idwt1d_one_level L f i = f i) := by
  constructor
  · intro f g hfg
    by_cases hL : L ≤ 1
    · intro i hi
      simp only [idwt1d_one_level, if_pos hL]
      exact hfg i hi
    · have hL2 : 2 ≤ L := by omega
      have h1 : EqB (ecOf L) (fun i => f i) (fun i => g i) := by
        intro i hi
        exact hfg i (by simp only [ecOf] at hi; omega)
      have h2 : EqB (ocOf L) (fun i => f (ecOf L + i)) (fun i => g (ecOf L + i)) := by
        intro i hi
        refine hfg (ecOf L + i) ?_
        simp only [ecOf, ocOf] at *
        omega
      have hcongr := liftKernelS_congr L hL2
        (fun i => f i, fun i => f (ecOf L + i))
        (fun i => g i, fun i => g (ecOf L + i)) h1 h2
      intro i hi
      simp only [idwt1d_one_level, if_neg (by omega : ¬ L ≤ 1), if_pos hi]
      by_cases hpar : i % 2 = 0
      · rw [if_pos hpar, if_pos hpar, hcongr.1 (i / 2) (by simp only [ecOf]; omega)]
      · rw [if_neg hpar, if_neg hpar, hcongr.2 (i / 2) (by simp only [ocOf]; omega)]
  · intro f i hi
    by_cases hL : L ≤ 1
    · simp only [idwt1d_one_level, if_pos hL]
    · simp only [idwt1d_one_level, if_neg hL, if_neg (by omega : ¬ i < L)]

/-! ### Axis passes over a 3D volume (spec §4.4, §4.5)

A volume is `v z y x`; in the flat buffer, `x` varies fastest, then `y`,
then `z` (spec §3).  An axis pass applies a 1D operation to every pencil
along that axis whose other two coordinates lie in the given sub-box. -/

/-- A volume of samples, indexed `v z y x`. -/
def Vol : Type := ℕ → ℕ → ℕ → ℝ

/-- Apply a 1D operation along the x axis to every row with `y < ly, z < lz`. -/
def xPass (T : Sig → Sig) (ly lz : ℕ) (v : Vol) : Vol :=
  fun z y => if y < ly ∧ z < lz then T (v z y) else v z y

/-- Apply a 1D operation along the y axis to every pencil with
`x < lx, z < lz`. -/
def yPass (T : Sig → Sig) (lx lz : ℕ) (v : Vol) : Vol :=
  fun z y x => if x < lx ∧ z < lz then T (fun j => v z j x) y else v z y x

/-- Apply a 1D operation along the z axis to every pencil with
`x < lx, y < ly`. -/
def zPass (T : Sig → Sig) (lx ly : ℕ) (v : Vol) : Vol :=
  fun z y x => if x < lx ∧ y < ly then T (fun k => v k y x) z else v z y x

lemma xPass_inv (T T' : Sig → Sig) (ly lz : ℕ) (h : ∀ f, T' (T f) = f)
    (v : Vol) : xPass T' ly lz (xPass T ly lz v) = v := by
  funext z y
  simp only [xPass]
  by_cases hc : y < ly ∧ z < lz
  · simp only [if_pos hc, h]
  · simp only [if_neg hc]

lemma yPass_inv (T T' : Sig → Sig) (lx lz : ℕ) (h : ∀ f, T' (T f) = f)
    (v : Vol) : yPass T' lx lz (yPass T lx lz v) = v := by
  funext z y x
  simp only [yPass]
  by_cases hc : x < lx ∧ z < lz
  · simp only [if_pos hc]
    show T' (T (fun j => v z j x)) y = v z y x
    rw [h]
  · simp only [if_neg hc]

lemma zPass_inv (T T' : Sig → Sig) (lx ly : ℕ) (h : ∀ f, T' (T f) = f)
    (v : Vol) : zPass T' lx ly (zPass T lx ly v) = v := by
  funext z y x
  simp only [zPass]
  by_cases hc : x < lx ∧ y < ly
  · simp only [if_pos hc]
    show T' (T (fun k => v k y x)) z = v z y x
    rw [h]
  · simp only [if_neg hc]

/-- Two volumes agree inside the box given by `d = (dx, dy, dz)`. -/
def EqIn (d : ℕ × ℕ × ℕ) (u v : Vol) : Prop :=
  ∀ z y x, z < d.2.2 → y < d.2.1 → x < d.1 → u z y x = v z y x

lemma xPass_eqIn {d : ℕ × ℕ × ℕ} (T : Sig → Sig) (L ly lz : ℕ)
    (hTc : ∀ f g, EqB L f g → EqB L (T f) (T g))
    (hTu : ∀ f i, L ≤ i → T f i = f i) (hL : L ≤ d.1)
    {u u' : Vol} (h : EqIn d u u') :
    EqIn d (xPass T ly lz u) (xPass T ly lz u') := by
  intro z y x hz hy hx
  simp only [xPass]
  by_cases hc : y < ly ∧ z < lz
  · simp only [if_pos hc]
    by_cases hxL : x < L
    · exact hTc (u z y) (u' z y) (fun i hi => h z y i hz hy (by omega)) x hxL
    · rw [hTu (u z y) x (by omega), hTu (u' z y) x (by omega)]
      exact h z y x hz hy hx
  · simp only [if_neg hc]
    exact h z y x hz hy hx

lemma yPass_eqIn {d : ℕ × ℕ × ℕ} (T : Sig → Sig) (L lx lz : ℕ)
    (hTc : ∀ f g, EqB L f g → EqB L (T f) (T g))
    (hTu : ∀ f i, L ≤ i → T f i = f i) (hL : L ≤ d.2.1)
    {u u' : Vol} (h : EqIn d u u') :
    EqIn d (yPass T lx lz u) (yPass T lx lz u') := by
  intro z y x hz hy hx
  simp only [yPass]
  by_cases hc : x < lx ∧ z < lz
  · simp only [if_pos hc]
    by_cases hyL : y < L
    · exact hTc (fun j => u z j x) (fun j => u' z j x)
        (fun j hj => h z j x hz (by omega) hx) y hyL
    · rw [hTu (fun j => u z j x) y (by omega), hTu (fun j => u' z j x) y (by omega)]
      exact h z y x hz hy hx
  · simp only [if_neg hc]
    exact h z y x hz hy hx

lemma zPass_eqIn {d : ℕ × ℕ × ℕ} (T : Sig → Sig) (L lx ly : ℕ)
    (hTc : ∀ f g, EqB L f g → EqB L (T f) (T g))
    (hTu : ∀ f i, L ≤ i → T f i = f i) (hL : L ≤ d.2.2)
    {u u' : Vol} (h : EqIn d u u') :
    EqIn d (zPass T lx ly u) (zPass T lx ly u') := by
  intro z y x hz hy hx
  simp only [zPass]
  by_cases hc : x < lx ∧ y < ly
  · simp only [if_pos hc]
    by_cases hzL : z < L
    · exact hTc (fun k => u k y x) (fun k => u' k y x)
        (fun k hk => h k y x (by omega) hy hx) z hzL
    · rw [hTu (fun k => u k y x) z (by omega), hTu (fun k => u' k y x) z (by omega)]
      exact h z y x hz hy hx
  · simp only [if_neg hc]
    exact h z y x hz hy hx

/-! ### Level drivers (spec §4.6) -/

/-- Run `k` analysis levels: level 0 first, each on the schedule `step`. -/
def fwdLevels {A : Type} (step : ℕ → A → A) : ℕ → A → A
  | 0, v => v
  | k + 1, v => step k (fwdLevels step k v)

/-- Run `k` synthesis levels in the reverse order of the analysis schedule. -/
def invLevels {A : Type} (step : ℕ → A → A) : ℕ → A → A
  | 0, v => v
  | k + 1, v => invLevels step k (step k v)

lemma invLevels_fwdLevels {A : Type} (S T : ℕ → A → A)
    (h : ∀ k v, S k (T k v) = v) : ∀ k v, invLevels S k (fwdLevels T k v) = v := by
  intro k
  induction k with
  | zero => intro v; rfl
  | succ n ih =>
    intro v
    show invLevels S n (S n (T n (fwdLevels T n v))) = v
    rw [h n, ih]

/-- The low-pass prefix length of an axis of original length `L` after `k`
analysis levels. -/
def aLen (L k : ℕ) : ℕ := (calc_approx_detail_len L k).1

lemma aLen_le (L k : ℕ) : aLen L k ≤ L := by
  unfold aLen
  rw [calc_eq_seq]
  show aSeq L k ≤ L
  induction k with
  | zero => exact le_refl L
  | succ i ih => rw [aSeq]; omega

/-- Modelled from the spec: the 1D analysis driver `dwt1d` (§4.6):
`num_of_xforms dx` levels, level `k` acting on the prefix of length
`a_k` of every x row. -/
noncomputable def dwt1d_vol (d : ℕ × ℕ × ℕ) (v : Vol) : Vol :=
  fwdLevels (fun k => xPass (dwt1d_one_level (aLen d.1 k)) d.2.1 d.2.2)
    (num_of_xforms d.1) v

/-- Modelled from the spec: the 1D synthesis driver `idwt1d` (§4.6):
the same schedule in reverse with synthesis passes. -/
noncomputable def idwt1d_vol (d : ℕ × ℕ × ℕ) (v : Vol) : Vol :=
  invLevels (fun k => xPass (idwt1d_one_level (aLen d.1 k)) d.2.1 d.2.2)
    (num_of_xforms d.1) v

/-- Modelled from the spec: one level of 2D analysis on the sub-plane
`(lx, ly)` of each of the `nz` slices (§4.4): rows then columns. -/
noncomputable def dwt2d_one_level (lx ly nz : ℕ) (v : Vol) : Vol :=
  yPass (dwt1d_one_level ly) lx nz (xPass (dwt1d_one_level lx) ly nz v)

/-- Modelled from the spec: one level of 2D synthesis (§4.4): columns first,
then rows. -/
noncomputable def idwt2d_one_level (lx ly nz : ℕ) (v : Vol) : Vol :=
  xPass (idwt1d_one_level lx) ly nz (yPass (idwt1d_one_level ly) lx nz v)

/-- Modelled from the spec: the 2D analysis driver `dwt2d` (§4.6):
`min (f dx) (f dy)` levels on the shared low-pass corner. -/
noncomputable def dwt2d_vol (d : ℕ × ℕ × ℕ) (v : Vol) : Vol :=
  fwdLevels (fun k => dwt2d_one_level (aLen d.1 k) (aLen d.2.1 k) d.2.2)
    (min (num_of_xforms d.1) (num_of_xforms d.2.1)) v

/-- Modelled from the spec: the 2D synthesis driver `idwt2d` (§4.6). -/
noncomputable def idwt2d_vol (d : ℕ × ℕ × ℕ) (v : Vol) : Vol :=
  invLevels (fun k => idwt2d_one_level (aLen d.1 k) (aLen d.2.1 k) d.2.2)
    (min (num_of_xforms d.1) (num_of_xforms d.2.1)) v

/-- Modelled from the spec: one level of 3D analysis on the sub-box
`(lx, ly, lz)` (§4.5): 1D analysis along x, then y, then z. -/
noncomputable def dwt3d_one_level (lx ly lz : ℕ) (v : Vol) : Vol :=
  zPass (dwt1d_one_level lz) lx ly
    (yPass (dwt1d_one_level ly) lx lz
      (xPass (dwt1d_one_level lx) ly lz v))

/-- Modelled from the spec: one level of 3D synthesis (§4.5): reverse axis
order. -/
noncomputable def idwt3d_one_level (lx ly lz : ℕ) (v : Vol) : Vol :=
  xPass (idwt1d_one_level lx) ly lz
    (yPass (idwt1d_one_level ly) lx lz
      (zPass (idwt1d_one_level lz) lx ly v))

/-- Modelled from the spec: the 3D dyadic analysis driver `dwt3d_dyadic`
(§4.6): `min (f dx) (f dy) (f dz)` levels on the common low-pass corner. -/
noncomputable def dwt3d_dyadic_vol (d : ℕ × ℕ × ℕ) (v : Vol) : Vol :=
  fwdLevels (fun k => dwt3d_one_level (aLen d.1 k) (aLen d.2.1 k) (aLen d.2.2 k))
    (min (num_of_xforms d.1) (min (num_of_xforms d.2.1) (num_of_xforms d.2.2))) v

/-- Modelled from the spec: the 3D dyadic synthesis driver `idwt3d_dyadic`
(§4.6). -/
noncomputable def idwt3d_dyadic_vol (d : ℕ × ℕ × ℕ) (v : Vol) : Vol :=
  invLevels (fun k => idwt3d_one_level (aLen d.1 k) (aLen d.2.1 k) (aLen d.2.2 k))
    (min (num_of_xforms d.1) (min (num_of_xforms d.2.1) (num_of_xforms d.2.2))) v

/-- Modelled from the spec: one wavelet-packet analysis level (§4.6):
only axes whose current length exceeds 1 are transformed. -/
noncomputable def packet_level_fwd (d : ℕ × ℕ × ℕ) (k : ℕ) (v : Vol) : Vol :=
  (if 1 < aLen d.2.2 k then
    zPass (dwt1d_one_level (aLen d.2.2 k)) (aLen d.1 k) (aLen d.2.1 k) else id)
  ((if 1 < aLen d.2.1 k then
    yPass (dwt1d_one_level (aLen d.2.1 k)) (aLen d.1 k) (aLen d.2.2 k) else id)
  ((if 1 < aLen d.1 k then
    xPass (dwt1d_one_level (aLen d.1 k)) (aLen d.2.1 k) (aLen d.2.2 k) else id) v))

/-- Modelled from the spec: one wavelet-packet synthesis level (§4.6,
reverse axis order). -/
noncomputable def packet_level_inv (d : ℕ × ℕ × ℕ) (k : ℕ) (v : Vol) : Vol :=
  (if 1 < aLen d.1 k then
    xPass (idwt1d_one_level (aLen d.1 k)) (aLen d.2.1 k) (aLen d.2.2 k) else id)
  ((if 1 < aLen d.2.1 k then
    yPass (idwt1d_one_level (aLen d.2.1 k)) (aLen d.1 k) (aLen d.2.2 k) else id)
  ((if 1 < aLen d.2.2 k then
    zPass (idwt1d_one_level (aLen d.2.2 k)) (aLen d.1 k) (aLen d.2.1 k) else id) v))

/-- Modelled from the spec: the 3D wavelet-packet analysis driver
`dwt3d_wavelet_packet` (§4.6): `max` of the per-axis partition counts many
levels. -/
noncomputable def dwt3d_packet_vol (d : ℕ × ℕ × ℕ) (v : Vol) : Vol :=
  fwdLevels (packet_level_fwd d)
    (max (num_of_partitions d.1)
      (max (num_of_partitions d.2.1) (num_of_partitions d.2.2))) v

/-- Modelled from the spec: the 3D wavelet-packet synthesis driver
`idwt3d_wavelet_packet` (§4.6). -/
noncomputable def idwt3d_packet_vol (d : ℕ × ℕ × ℕ) (v : Vol) : Vol :=
  invLevels (packet_level_inv d)
    (max (num_of_partitions d.1)
      (max (num_of_partitions d.2.1) (num_of_partitions d.2.2))) v

/-! ### Exact inversion of the volume drivers -/

lemma dwt2d_one_level_inv (lx ly nz : ℕ) (v : Vol) :
    idwt2d_one_level lx ly nz (dwt2d_one_level lx ly nz v) = v := by
  unfold dwt2d_one_level idwt2d_one_level
  rw [yPass_inv _ _ _ _ (idwt1d_one_level_inv ly),
    xPass_inv _ _ _ _ (idwt1d_one_level_inv lx)]

lemma dwt3d_one_level_inv (lx ly lz : ℕ) (v : Vol) :
    idwt3d_one_level lx ly lz (dwt3d_one_level lx ly lz v) = v := by
  unfold dwt3d_one_level idwt3d_one_level
  rw [zPass_inv _ _ _ _ (idwt1d_one_level_inv lz),
    yPass_inv _ _ _ _ (idwt1d_one_level_inv ly),
    xPass_inv _ _ _ _ (idwt1d_one_level_inv lx)]

lemma packet_level_inv_fwd (d : ℕ × ℕ × ℕ) (k : ℕ) (v : Vol) :
    packet_level_inv d k (packet_level_fwd d k v) = v := by
  unfold packet_level_fwd packet_level_inv
  by_cases hz : 1 < aLen d.2.2 k <;>
    by_cases hy : 1 < aLen d.2.1 k <;>
      by_cases hx : 1 < aLen d.1 k <;>
        simp only [if_pos, if_neg, hz, hy, hx, if_true, if_false, id_eq,
          zPass_inv _ _ _ _ (idwt1d_one_level_inv _),
          yPass_inv _ _ _ _ (idwt1d_one_level_inv _),
          xPass_inv _ _ _ _ (idwt1d_one_level_inv _)]

lemma dwt1d_vol_inv (d : ℕ × ℕ × ℕ) (v : Vol) :
    idwt1d_vol d (dwt1d_vol d v) = v := by
  unfold dwt1d_vol idwt1d_vol
  exact invLevels_fwdLevels _ _
    (fun k w => xPass_inv _ _ _ _ (idwt1d_one_level_inv (aLen d.1 k)) w) _ v

lemma dwt2d_vol_inv (d : ℕ × ℕ × ℕ) (v : Vol) :
    idwt2d_vol d (dwt2d_vol d v) = v := by
  unfold dwt2d_vol idwt2d_vol
  exact invLevels_fwdLevels _ _
    (fun k w => dwt2d_one_level_inv (aLen d.1 k) (aLen d.2.1 k) d.2.2 w) _ v

lemma dwt3d_dyadic_vol_inv (d : ℕ × ℕ × ℕ) (v : Vol) :
    idwt3d_dyadic_vol d (dwt3d_dyadic_vol d v) = v := by
  unfold dwt3d_dyadic_vol idwt3d_dyadic_vol
  exact invLevels_fwdLevels _ _
    (fun k w => dwt3d_one_level_inv (aLen d.1 k) (aLen d.2.1 k) (aLen d.2.2 k) w) _ v

lemma dwt3d_packet_vol_inv (d : ℕ × ℕ × ℕ) (v : Vol) :
    idwt3d_packet_vol d (dwt3d_packet_vol d v) = v := by
  unfold dwt3d_packet_vol idwt3d_packet_vol
  exact invLevels_fwdLevels _ _ (fun k w => packet_level_inv_fwd d k w) _ v

/-! ### The synthesis drivers only depend on and only modify the volume box -/

lemma invLevels_eqIn {d : ℕ × ℕ × ℕ} (S : ℕ → Vol → Vol)
    (h : ∀ k u u', EqIn d u u' → EqIn d (S k u) (S k u')) :
    ∀ k u u', EqIn d u u' → EqIn d (invLevels S k u) (invLevels S k u') := by
  intro k
  induction k with
  | zero => intro u u' hu; exact hu
  | succ n ih =>
    intro u u' hu
    exact ih (S n u) (S n u') (h n u u' hu)

lemma xPass_idwt_eqIn {d : ℕ × ℕ × ℕ} (L ly lz : ℕ) (hL : L ≤ d.1)
    {u u' : Vol} (h : EqIn d u u') :
    EqIn d (xPass (idwt1d_one_level L) ly lz u) (xPass (idwt1d_one_level L) ly lz u') :=
  xPass_eqIn _ L ly lz (idwt1d_one_level_local L).1 (idwt1d_one_level_local L).2 hL h

lemma yPass_idwt_eqIn {d : ℕ × ℕ × ℕ} (L lx lz : ℕ) (hL : L ≤ d.2.1)
    {u u' : Vol} (h : EqIn d u u') :
    EqIn d (yPass (idwt1d_one_level L) lx lz u) (yPass (idwt1d_one_level L) lx lz u') :=
  yPass_eqIn _ L lx lz (idwt1d_one_level_local L).1 (idwt1d_one_level_local L).2 hL h

lemma zPass_idwt_eqIn {d : ℕ × ℕ × ℕ} (L lx ly : ℕ) (hL : L ≤ d.2.2)
    {u u' : Vol} (h : EqIn d u u') :
    EqIn d (zPass (idwt1d_one_level L) lx ly u) (zPass (idwt1d_one_level L) lx ly u') :=
  zPass_eqIn _ L lx ly (idwt1d_one_level_local L).1 (idwt1d_one_level_local L).2 hL h

lemma idwt1d_vol_eqIn (d : ℕ × ℕ × ℕ) {u u' : Vol} (h : EqIn d u u') :
    EqIn d (idwt1d_vol d u) (idwt1d_vol d u') := by
  unfold idwt1d_vol
  exact invLevels_eqIn _
    (fun k a b hab => xPass_idwt_eqIn (aLen d.1 k) _ _ (aLen_le d.1 k) hab) _ u u' h

lemma idwt2d_vol_eqIn (d : ℕ × ℕ × ℕ) {u u' : Vol} (h : EqIn d u u') :
    EqIn d (idwt2d_vol d u) (idwt2d_vol d u') := by
  unfold idwt2d_vol
  refine invLevels_eqIn _ (fun k a b hab => ?_) _ u u' h
  unfold idwt2d_one_level
  exact xPass_idwt_eqIn (aLen d.1 k) _ _ (aLen_le d.1 k)
    (yPass_idwt_eqIn (aLen d.2.1 k) _ _ (aLen_le d.2.1 k) hab)

lemma idwt3d_dyadic_vol_eqIn (d : ℕ × ℕ × ℕ) {u u' : Vol} (h : EqIn d u u') :
    EqIn d (idwt3d_dyadic_vol d u) (idwt3d_dyadic_vol d u') := by
  unfold idwt3d_dyadic_vol
  refine invLevels_eqIn _ (fun k a b hab => ?_) _ u u' h
  unfold idwt3d_one_level
  exact xPass_idwt_eqIn (aLen d.1 k) _ _ (aLen_le d.1 k)
    (yPass_idwt_eqIn (aLen d.2.1 k) _ _ (aLen_le d.2.1 k)
      (zPass_idwt_eqIn (aLen d.2.2 k) _ _ (aLen_le d.2.2 k) hab))

lemma idwt3d_packet_vol_eqIn (d : ℕ × ℕ × ℕ) {u u' : Vol} (h : EqIn d u u') :
    EqIn d (idwt3d_packet_vol d u) (idwt3d_packet_vol d u') := by
  unfold idwt3d_packet_vol
  refine invLevels_eqIn _ (fun k a b hab => ?_) _ u u' h
  unfold packet_level_inv
  have hz : EqIn d
      ((if 1 < aLen d.2.2 k then
        zPass (idwt1d_one_level (aLen d.2.2 k)) (aLen d.1 k) (aLen d.2.1 k)
        else id) a)
      ((if 1 < aLen d.2.2 k then
        zPass (idwt1d_one_level (aLen d.2.2 k)) (aLen d.1 k) (aLen d.2.1 k)
        else id) b) := by
    by_cases hc : 1 < aLen d.2.2 k
    · simp only [if_pos hc]
      exact zPass_idwt_eqIn (aLen d.2.2 k) _ _ (aLen_le d.2.2 k) hab
    · simpa only [if_neg hc, id_eq] using hab
  have hy : EqIn d
      ((if 1 < aLen d.2.1 k then
        yPass (idwt1d_one_level (aLen d.2.1 k)) (aLen d.1 k) (aLen d.2.2 k)
        else id) ((if 1 < aLen d.2.2 k then
          zPass (idwt1d_one_level (aLen d.2.2 k)) (aLen d.1 k) (aLen d.2.1 k)
          else id) a))
      ((if 1 < aLen d.2.1 k then
        yPass (idwt1d_one_level (aLen d.2.1 k)) (aLen d.1 k) (aLen d.2.2 k)
        else id) ((if 1 < aLen d.2.2 k then
          zPass (idwt1d_one_level (aLen d.2.2 k)) (aLen d.1 k) (aLen d.2.1 k)
          else id) b)) := by
    by_cases hc : 1 < aLen d.2.1 k
    · simp only [if_pos hc]
      exact yPass_idwt_eqIn (aLen d.2.1 k) _ _ (aLen_le d.2.1 k) hz
    · simpa only [if_neg hc, id_eq] using hz
  by_cases hc : 1 < aLen d.1 k
  · simp only [if_pos hc]
    exact xPass_idwt_eqIn (aLen d.1 k) _ _ (aLen_le d.1 k) hy
  · simpa only [if_neg hc, id_eq] using hy

/-! ### The flat buffer (spec §3: x varies fastest, then y, then z) -/

/-- `dx · dy · dz`. -/
def dimsProd (d : ℕ × ℕ × ℕ) : ℕ := d.1 * d.2.1 * d.2.2

/-- Serialize the box of a volume into a flat buffer, x fastest. -/
def flatten (d : ℕ × ℕ × ℕ) (v : Vol) : List ℝ :=
  (List.range (dimsProd d)).map (fun i =>
    v (i / (d.1 * d.2.1)) (i / d.1 % d.2.1) (i % d.1))

/-- Read a flat buffer as a volume, x fastest, `0` outside. -/
def unflatten (d : ℕ × ℕ × ℕ) (buf : List ℝ) : Vol :=
  fun z y x => buf.getD (z * (d.1 * d.2.1) + y * d.1 + x) 0

lemma getD_range_map (n : ℕ) (f : ℕ → ℝ) (j : ℕ) (h : j < n) :
    ((List.range n).map f).getD j 0 = f j := by
  have hlen : j < ((List.range n).map f).length := by simpa using h
  rw [List.getD_eq_getElem _ 0 hlen, List.getElem_map, List.getElem_range]

lemma flatten_length (d : ℕ × ℕ × ℕ) (v : Vol) :
    (flatten d v).length = dimsProd d := by
  simp [flatten]

lemma encode_lt {d : ℕ × ℕ × ℕ} {z y x : ℕ}
    (hz : z < d.2.2) (hy : y < d.2.1) (hx : x < d.1) :
    z * (d.1 * d.2.1) + y * d.1 + x < dimsProd d := by
  obtain ⟨dx, dy, dz⟩ := d
  simp only [dimsProd] at *
  have h1 : y * dx + x < dy * dx := by
    calc y * dx + x < y * dx + dx := by omega
    _ = (y + 1) * dx := by ring
    _ ≤ dy * dx := Nat.mul_le_mul_right dx (by omega)
  calc z * (dx * dy) + y * dx + x < z * (dx * dy) + dy * dx := by omega
  _ = (z + 1) * (dx * dy) := by ring
  _ ≤ dz * (dx * dy) := Nat.mul_le_mul_right (dx * dy) (by omega)
  _ = dx * dy * dz := by ring

lemma decode_encode {d : ℕ × ℕ × ℕ} {z y x : ℕ}
    (hz : z < d.2.2) (hy : y < d.2.1) (hx : x < d.1) :
    (z * (d.1 * d.2.1) + y * d.1 + x) / (d.1 * d.2.1) = z ∧
    (z * (d.1 * d.2.1) + y * d.1 + x) / d.1 % d.2.1 = y ∧
    (z * (d.1 * d.2.1) + y * d.1 + x) % d.1 = x := by
  obtain ⟨dx, dy, dz⟩ := d
  simp only at *
  have hdx : 0 < dx := by omega
  have hdy : 0 < dy := by omega
  refine ⟨?_, ?_, ?_⟩
  · rw [show z * (dx * dy) + y * dx + x = (y * dx + x) + z * (dx * dy) by ring,
      Nat.add_mul_div_right _ _ (by positivity : 0 < dx * dy),
      Nat.div_eq_of_lt ?_, Nat.zero_add]
    calc y * dx + x < (y + 1) * dx := by rw [Nat.succ_mul]; omega
    _ ≤ dy * dx := Nat.mul_le_mul_right dx (by omega)
    _ = dx * dy := by ring
  · rw [show z * (dx * dy) + y * dx + x = x + (z * dy + y) * dx by ring,
      Nat.add_mul_div_right _ _ hdx, Nat.div_eq_of_lt hx, Nat.zero_add,
      show z * dy + y = y + z * dy by ring, Nat.add_mul_mod_self_right,
      Nat.mod_eq_of_lt hy]
  · rw [show z * (dx * dy) + y * dx + x = x + (z * dy + y) * dx by ring,
      Nat.add_mul_mod_self_right, Nat.mod_eq_of_lt hx]

lemma unflatten_flatten (d : ℕ × ℕ × ℕ) (v : Vol) :
    EqIn d (unflatten d (flatten d v)) v := by
  intro z y x hz hy hx
  unfold unflatten flatten
  rw [getD_range_map _ _ _ (encode_lt hz hy hx)]
  obtain ⟨h1, h2, h3⟩ := decode_encode hz hy hx
  rw [h1, h2, h3]

lemma flatten_congr (d : ℕ × ℕ × ℕ) {u u' : Vol} (h : EqIn d u u') :
    flatten d u = flatten d u' := by
  unfold flatten
  refine List.map_congr_left (fun i hi => ?_)
  rw [List.mem_range] at hi
  obtain ⟨dx, dy, dz⟩ := d
  simp only [dimsProd] at hi
  have hdx : 0 < dx := by
    rcases Nat.eq_zero_or_pos dx with h0 | h0
    · rw [h0] at hi; simp at hi
    · exact h0
  have hdy : 0 < dy := by
    rcases Nat.eq_zero_or_pos dy with h0 | h0
    · rw [h0] at hi; simp at hi
    · exact h0
  refine h _ _ _ ?_ (Nat.mod_lt _ hdy) (Nat.mod_lt _ hdx)
  have : 0 < dx * dy := by positivity
  rw [Nat.div_lt_iff_lt_mul this]
  calc i < dx * dy * dz := hi
  _ = dz * (dx * dy) := by ring

lemma flatten_unflatten (d : ℕ × ℕ × ℕ) (buf : List ℝ)
    (h : buf.length = dimsProd d) :
    flatten d (unflatten d buf) = buf := by
  refine List.ext_getElem (by rw [flatten_length, h]) (fun i h1 h2 => ?_)
  rw [flatten_length] at h1
  unfold flatten
  have hlen : i < ((List.range (dimsProd d)).map (fun i =>
      unflatten d buf (i / (d.1 * d.2.1)) (i / d.1 % d.2.1) (i % d.1))).length := by
    simpa using h1
  rw [List.getElem_map, List.getElem_range]
  unfold unflatten
  obtain ⟨dx, dy, dz⟩ := d
  simp only [dimsProd] at h1 h ⊢
  have henc : i / (dx * dy) * (dx * dy) + i / dx % dy * dx + i % dx = i := by
    have hmm : i % (dx * dy) = i % dx + dx * (i / dx % dy) := Nat.mod_mul
    have hdm : dx * dy * (i / (dx * dy)) + i % (dx * dy) = i := Nat.div_add_mod i (dx * dy)
    calc i / (dx * dy) * (dx * dy) + i / dx % dy * dx + i % dx
        = dx * dy * (i / (dx * dy)) + (i % dx + dx * (i / dx % dy)) := by ring
    _ = dx * dy * (i / (dx * dy)) + i % (dx * dy) := by rw [hmm]
    _ = i := hdm
  have hbl : i < buf.length := by rw [h]; exact h1
  rw [henc, List.getD_eq_getElem buf 0 hbl]

/-! ### The core class state and its public operations

The private data members are `m_data_buf`, `m_dims`, `m_qcc_buf`,
`m_slice_buf` (source lines 163-174). -/

/-- The state of a `CDF97` instance (source lines 163-174). -/
structure State where
  m_data_buf : List ℝ
  m_dims : ℕ × ℕ × ℕ
  m_qcc_buf : List ℝ
  m_slice_buf : List ℝ

/-- `get_dims` (source line 96). -/
def get_dims (s : State) : ℕ × ℕ × ℕ := s.m_dims

/-- `view_data` (source line 94). -/
def view_data (s : State) : List ℝ := s.m_data_buf

/-- Run a volume transform in place on the owned buffer. -/
noncomputable def applyVol (F : ℕ × ℕ × ℕ → Vol → Vol) (s : State) : State :=
  { s with m_data_buf :=
      flatten s.m_dims (F s.m_dims (unflatten s.m_dims s.m_data_buf)) }

/-- Modelled from the spec: `dwt1d` (declared source line 99, spec §4.6). -/
noncomputable def dwt1d (s : State) : State := applyVol dwt1d_vol s

/-- Modelled from the spec: `idwt1d` (declared source line 100, spec §4.6). -/
noncomputable def idwt1d (s : State) : State := applyVol idwt1d_vol s

/-- Modelled from the spec: `dwt2d` (declared source line 101, spec §4.6). -/
noncomputable def dwt2d (s : State) : State := applyVol dwt2d_vol s

/-- Modelled from the spec: `idwt2d` (declared source line 103, spec §4.6). -/
noncomputable def idwt2d (s : State) : State := applyVol idwt2d_vol s

/-- Modelled from the spec: `dwt3d_dyadic` (declared source line 107, spec
§4.6). -/
noncomputable def dwt3d_dyadic (s : State) : State := applyVol dwt3d_dyadic_vol s

/-- Modelled from the spec: `idwt3d_dyadic` (declared source line 108, spec
§4.6). -/
noncomputable def idwt3d_dyadic (s : State) : State := applyVol idwt3d_dyadic_vol s

/-- Modelled from the spec: `dwt3d_wavelet_packet` (declared source line 105,
spec §4.6). -/
noncomputable def dwt3d_wavelet_packet (s : State) : State :=
  applyVol dwt3d_packet_vol s

/-- Modelled from the spec: `idwt3d_wavelet_packet` (declared source line 106,
spec §4.6). -/
noncomputable def idwt3d_wavelet_packet (s : State) : State :=
  applyVol idwt3d_packet_vol s

/-- The four decomposition modes. -/
inductive Mode where
  | oneD
  | twoD
  | dyadic3D
  | packet3D
  deriving DecidableEq

/-- The forward transform of each mode. -/
noncomputable def dwtOf : Mode → State → State
  | Mode.oneD => dwt1d
  | Mode.twoD => dwt2d
  | Mode.dyadic3D => dwt3d_dyadic
  | Mode.packet3D => dwt3d_wavelet_packet

/-- The inverse transform of each mode. -/
noncomputable def idwtOf : Mode → State → State
  | Mode.oneD => idwt1d
  | Mode.twoD => idwt2d
  | Mode.dyadic3D => idwt3d_dyadic
  | Mode.packet3D => idwt3d_wavelet_packet

lemma applyVol_dims (F : ℕ × ℕ × ℕ → Vol → Vol) (s : State) :
    (applyVol F s).m_dims = s.m_dims := rfl

lemma applyVol_len (F : ℕ × ℕ × ℕ → Vol → Vol) (s : State) :
    (applyVol F s).m_data_buf.length = dimsProd s.m_dims :=
  flatten_length _ _

lemma dwtOf_applyVol (m : Mode) : ∃ F G,
    dwtOf m = applyVol F ∧ idwtOf m = applyVol G ∧
    (∀ d v, G d (F d v) = v) ∧
    (∀ d u u', EqIn d u u' → EqIn d (G d u) (G d u')) := by
  cases m
  · exact ⟨dwt1d_vol, idwt1d_vol, rfl, rfl, dwt1d_vol_inv,
      fun d u u' h => idwt1d_vol_eqIn d h⟩
  · exact ⟨dwt2d_vol, idwt2d_vol, rfl, rfl, dwt2d_vol_inv,
      fun d u u' h => idwt2d_vol_eqIn d h⟩
  · exact ⟨dwt3d_dyadic_vol, idwt3d_dyadic_vol, rfl, rfl, dwt3d_dyadic_vol_inv,
      fun d u u' h => idwt3d_dyadic_vol_eqIn d h⟩
  · exact ⟨dwt3d_packet_vol, idwt3d_packet_vol, rfl, rfl, dwt3d_packet_vol_inv,
      fun d u u' h => idwt3d_packet_vol_eqIn d h⟩

/-- Forward-then-inverse restores the owned buffer exactly, in every mode. -/
lemma round_trip_buf (m : Mode) (s : State)
    (h : s.m_data_buf.length = dimsProd s.m_dims) :
    (idwtOf m (dwtOf m s)).m_data_buf = s.m_data_buf := by
  obtain ⟨F, G, hF, hG, hinv, hcongr⟩ := dwtOf_applyVol m
  rw [hF, hG]
  show flatten s.m_dims
      (G s.m_dims (unflatten s.m_dims
        (flatten s.m_dims (F s.m_dims (unflatten s.m_dims s.m_data_buf))))) =
    s.m_data_buf
  set d := s.m_dims
  set u := unflatten d s.m_data_buf
  have h1 : EqIn d (unflatten d (flatten d (F d u))) (F d u) :=
    unflatten_flatten d (F d u)
  have h2 : EqIn d (G d (unflatten d (flatten d (F d u)))) u := by
    have := hcongr d _ _ h1
    rwa [hinv d u] at this
  rw [flatten_congr d h2, flatten_unflatten d s.m_data_buf h]

/-- **C1.** For every decomposition mode (1D, 2D, 3D-dyadic,
3D-wavelet-packet) and every state whose buffer length matches its shape
`dx·dy·dz`, the forward transform followed by the inverse transform of the
same mode restores every sample of the original buffer to within
`1e-10 · max(|x|, 1)` — in the exact-real model the reconstruction is exact. -/
theorem C1_perfect_reconstruction (m : Mode) (s : State)
    (h : s.m_data_buf.length = dimsProd s.m_dims) :
    (idwtOf m (dwtOf m s)).m_data_buf = s.m_data_buf ∧
    ∀ i, i < s.m_data_buf.length →
      |(idwtOf m (dwtOf m s)).m_data_buf.getD i 0 - s.m_data_buf.getD i 0| ≤
        1e-10 * max |s.m_data_buf.getD i 0| 1 := by
  have hbuf := round_trip_buf m s h
  refine ⟨hbuf, fun i _ => ?_⟩
  rw [hbuf, sub_self, abs_zero]
  have hmax : (1 : ℝ) ≤ max |s.m_data_buf.getD i 0| 1 := le_max_right _ _
  nlinarith [abs_nonneg (s.m_data_buf.getD i 0)]

/-- Witness for C1: a 2-sample 1D volume through the wavelet-packet mode. -/
theorem C1_witness :
    (idwtOf Mode.packet3D (dwtOf Mode.packet3D
        (State.mk [1, 2] (2, 1, 1) [] []))).m_data_buf =
      (State.mk [1, 2] (2, 1, 1) [] []).m_data_buf :=
  (C1_perfect_reconstruction Mode.packet3D (State.mk [1, 2] (2, 1, 1) [] [])
    (by simp [dimsProd])).1

/-- A single forward or inverse transform call. -/
def Xform : Type := Mode × Bool

/-- Execute one call: `true` is forward, `false` is inverse. -/
noncomputable def applyXform (t : Xform) (s : State) : State :=
  if t.2 then dwtOf t.1 s else idwtOf t.1 s

/-- **C7.** For every loaded state whose buffer length equals `dx·dy·dz`,
after any sequence of forward or inverse transform calls in any of the four
modes, the buffer length still equals `dx·dy·dz`, it never changed, and
`get_dims` returns the same triple as before. -/
theorem C7_shape_length_invariant (s : State)
    (h : s.m_data_buf.length = dimsProd s.m_dims) (ops : List Xform) :
    (ops.foldl (fun t op => applyXform op t) s).m_data_buf.length =
      dimsProd s.m_dims ∧
    (ops.foldl (fun t op => applyXform op t) s).m_data_buf.length =
      s.m_data_buf.length ∧
    get_dims (ops.foldl (fun t op => applyXform op t) s) = get_dims s := by
  have main : ∀ (l : List Xform) (t : State),
      t.m_data_buf.length = dimsProd t.m_dims →
      (l.foldl (fun t op => applyXform op t) t).m_data_buf.length =
        dimsProd t.m_dims ∧
      get_dims (l.foldl (fun t op => applyXform op t) t) = get_dims t := by
    intro l
    induction l with
    | nil => exact fun t ht => ⟨ht, rfl⟩
    | cons op rest ih =>
      intro t ht
      have hstep : (applyXform op t).m_dims = t.m_dims ∧
          (applyXform op t).m_data_buf.length = dimsProd t.m_dims := by
        obtain ⟨F, G, hF, hG, _, _⟩ := dwtOf_applyVol op.1
        unfold applyXform
        by_cases hb : op.2
        · rw [if_pos hb, hF]
          exact ⟨applyVol_dims F t, applyVol_len F t⟩
        · rw [if_neg hb, hG]
          exact ⟨applyVol_dims G t, applyVol_len G t⟩
      have := ih (applyXform op t) (by rw [hstep.2, hstep.1])
      refine ⟨?_, ?_⟩
      · rw [List.foldl_cons]
        rw [this.1, hstep.1]
      · rw [List.foldl_cons]
        rw [this.2]
        unfold get_dims
        rw [hstep.1]
  obtain ⟨h1, h2⟩ := main ops s h
  exact ⟨h1, by rw [h1, h], h2⟩

/-- A concrete loaded state used by the C7 witness. -/
noncomputable def c7s : State := State.mk [1, 2] (2, 1, 1) [] []

/-- A concrete call sequence used by the C7 witness. -/
def c7ops : List Xform :=
  [(Mode.dyadic3D, true), (Mode.packet3D, true), (Mode.packet3D, false)]

/-- Witness for C7: a concrete state through forward and inverse dyadic and
packet calls. -/
theorem C7_witness :
    (c7ops.foldl (fun t op => applyXform op t) c7s).m_data_buf.length =
      dimsProd c7s.m_dims ∧
    (c7ops.foldl (fun t op => applyXform op t) c7s).m_data_buf.length =
      c7s.m_data_buf.length ∧
    get_dims (c7ops.foldl (fun t op => applyXform op t) c7s) = get_dims c7s :=
  C7_shape_length_invariant c7s (by simp [c7s, dimsProd]) c7ops

/-! ### Ingest operations (spec §4.7, §6, §7) -/

/-- `max(dx, dy, dz)`. -/
def max3 (d : ℕ × ℕ × ℕ) : ℕ := max d.1 (max d.2.1 d.2.2)

/-- Modelled from the spec: `copy_data` (declared source lines 87-88; spec
§4.7, §6, §7): verifies `len = dx·dy·dz` (surfacing `WrongDims` on mismatch),
sizes the owned buffer to `len`, value-converts every source sample to
double, installs the shape, and resets prior state: the lift scratch is
reallocated to `2·max(dx,dy,dz)` doubles and the plane scratch cleared for
lazy reallocation.  The typed source is a list with its conversion to
double. -/
noncomputable def copy_data {T : Type} (conv : T → ℝ) (buf : List T) (len : ℕ)
    (dims : ℕ × ℕ × ℕ) (s : State) : RTNType × State :=
  if len ≠ dimsProd dims then (RTNType.WrongDims, s)
  else
    (RTNType.Good,
      { m_data_buf := (buf.take len).map conv
        m_dims := dims
        m_qcc_buf := List.replicate (2 * max3 dims) 0
        m_slice_buf := [] })

/-- Modelled from the spec: `take_data` (declared source line 89; spec §4.7):
like `copy_data` but adopting a ready-made double sequence, whose own length
plays the role of `len`. -/
noncomputable def take_data (buf : List ℝ) (dims : ℕ × ℕ × ℕ) (s : State) :
    RTNType × State :=
  if buf.length ≠ dimsProd dims then (RTNType.WrongDims, s)
  else
    (RTNType.Good,
      { m_data_buf := buf
        m_dims := dims
        m_qcc_buf := List.replicate (2 * max3 dims) 0
        m_slice_buf := [] })

/-- **C6.** `copy_data(src, len, dims)` returns `WrongDims` if and only if
`len ≠ dx·dy·dz`; otherwise it returns `Good`, sizes the owned buffer to
`len`, value-converts every source sample to double into the buffer, installs
the shape and resets prior internal state including scratch — and likewise
`take_data` with the adopted sequence's length. -/
theorem C6_copy_take_data {T : Type} (conv : T → ℝ) (buf : List T) (len : ℕ)
    (dims : ℕ × ℕ × ℕ) (s : State) (dbuf : List ℝ) (hlen : buf.length = len) :
    ((copy_data conv buf len dims s).1 = RTNType.WrongDims ↔
      len ≠ dimsProd dims) ∧
    ((copy_data conv buf len dims s).1 = RTNType.Good ↔ len = dimsProd dims) ∧
    (len = dimsProd dims →
      (copy_data conv buf len dims s).2.m_data_buf = buf.map conv ∧
      (copy_data conv buf len dims s).2.m_data_buf.length = len ∧
      (copy_data conv buf len dims s).2.m_dims = dims ∧
      (copy_data conv buf len dims s).2.m_qcc_buf =
        List.replicate (2 * max3 dims) 0 ∧
      (copy_data conv buf len dims s).2.m_slice_buf = []) ∧
    ((take_data dbuf dims s).1 = RTNType.WrongDims ↔
      dbuf.length ≠ dimsProd dims) ∧
    (dbuf.length = dimsProd dims →
      (take_data dbuf dims s).2.m_data_buf = dbuf ∧
      (take_data dbuf dims s).2.m_dims = dims ∧
      (take_data dbuf dims s).2.m_qcc_buf = List.replicate (2 * max3 dims) 0 ∧
      (take_data dbuf dims s).2.m_slice_buf = []) := by
  have htake : buf.take len = buf := by
    rw [← hlen]
    exact List.take_length buf
  refine ⟨?_, ?_, ?_, ?_, ?_⟩
  · unfold copy_data
    by_cases hc : len ≠ dimsProd dims
    · simp [hc]
    · simp [hc]
  · unfold copy_data
    by_cases hc : len ≠ dimsProd dims
    · simp [hc]
    · simp [hc]
      omega
  · intro hc
    unfold copy_data
    rw [if_neg (by omega)]
    refine ⟨by rw [htake], ?_, rfl, rfl, rfl⟩
    simp [htake, hlen]
  · unfold take_data
    by_cases hc : dbuf.length ≠ dimsProd dims
    · simp [hc]
    · simp [hc]
  · intro hc
    unfold take_data
    rw [if_neg (by omega)]
    exact ⟨rfl, rfl, rfl, rfl⟩

/-- Witness for C6 at a 2-sample volume of shape `(2,1,1)`. -/
theorem C6_witness :
    (copy_data (fun x : ℝ => x) [1, 2] 2 (2, 1, 1) c7s).1 = RTNType.Good ∧
    (copy_data (fun x : ℝ => x) [1, 2] 2 (2, 1, 1) c7s).2.m_data_buf =
      ([1, 2] : List ℝ).map (fun x => x) ∧
    ((take_data [5, 7] (2, 1, 1) c7s).1 = RTNType.WrongDims ↔
      ([5, 7] : List ℝ).length ≠ dimsProd (2, 1, 1)) := by
  have hth := C6_copy_take_data (fun x : ℝ => x) ([1, 2] : List ℝ) 2 (2, 1, 1)
    c7s ([5, 7] : List ℝ) (by simp)
  exact ⟨hth.2.1.mpr (by simp [dimsProd]),
    (hth.2.2.1 (by simp [dimsProd])).1, hth.2.2.2.1⟩

/-! ### Gather and scatter (spec §4.2) -/

/-- Modelled from the spec: the gather permutation (`m_gather_even` /
`m_gather_odd`, declared source lines 146-147; spec §4.2): all even-indexed
source elements, in order, go to positions `[0, ⌈n/2⌉)`, all odd-indexed
ones to `[⌈n/2⌉, n)`; the two declared variants differ only in the length
parity of the input, which here determines the split point `⌈n/2⌉`. -/
def m_gather (l : List ℝ) : List ℝ :=
  (List.range (ecOf l.length)).map (fun j => l.getD (2 * j) 0) ++
    (List.range (ocOf l.length)).map (fun j => l.getD (2 * j + 1) 0)

/-- Modelled from the spec: the scatter permutation (`m_scatter_even` /
`m_scatter_odd`, declared source lines 152-153; spec §4.2): positions
`[0, ⌈n/2⌉)` go back to even indices and `[⌈n/2⌉, n)` to odd indices. -/
def m_scatter (l : List ℝ) : List ℝ :=
  (List.range l.length).map (fun i =>
    if i % 2 = 0 then l.getD (i / 2) 0 else l.getD (ecOf l.length + i / 2) 0)

lemma m_gather_length (l : List ℝ) : (m_gather l).length = l.length := by
  simp only [m_gather, List.length_append, List.length_map, List.length_range,
    ecOf, ocOf]
  omega

lemma m_scatter_length (l : List ℝ) : (m_scatter l).length = l.length := by
  simp [m_scatter]

lemma gather_getD_low (l : List ℝ) (j : ℕ) (h : j < ecOf l.length) :
    (m_gather l).getD j 0 = l.getD (2 * j) 0 := by
  unfold m_gather
  rw [List.getD_append _ _ _ _ (by simpa using h)]
  exact getD_range_map _ _ _ h

lemma gather_getD_high (l : List ℝ) (j : ℕ) (h : j < ocOf l.length) :
    (m_gather l).getD (ecOf l.length + j) 0 = l.getD (2 * j + 1) 0 := by
  unfold m_gather
  rw [List.getD_append_right _ _ _ _ (by simp)]
  simp only [List.length_map, List.length_range]
  rw [show ecOf l.length + j - ecOf l.length = j by omega]
  exact getD_range_map _ _ _ h

lemma scatter_getD (l : List ℝ) (i : ℕ) (h : i < l.length) :
    (m_scatter l).getD i 0 =
      if i % 2 = 0 then l.getD (i / 2) 0
      else l.getD (ecOf l.length + i / 2) 0 :=
  getD_range_map _ _ _ h

lemma scatter_gather (l : List ℝ) : m_scatter (m_gather l) = l := by
  refine List.ext_getElem (by rw [m_scatter_length, m_gather_length]) ?_
  intro i h1 h2
  rw [← List.getD_eq_getElem _ 0 h1, ← List.getD_eq_getElem l 0 h2]
  have hge : i < (m_gather l).length := by rw [m_gather_length]; exact h2
  rw [scatter_getD (m_gather l) i hge, m_gather_length]
  by_cases hpar : i % 2 = 0
  · rw [if_pos hpar, gather_getD_low l (i / 2)
      (by simp only [ecOf]; omega)]
    congr 1
    omega
  · rw [if_neg hpar, gather_getD_high l (i / 2)
      (by simp only [ocOf]; omega)]
    congr 1
    omega

lemma gather_scatter (l : List ℝ) : m_gather (m_scatter l) = l := by
  refine List.ext_getElem (by rw [m_gather_length, m_scatter_length]) ?_
  intro j h1 h2
  rw [← List.getD_eq_getElem _ 0 h1, ← List.getD_eq_getElem l 0 h2]
  have hsl : (m_scatter l).length = l.length := m_scatter_length l
  by_cases hj : j < ecOf l.length
  · have := gather_getD_low (m_scatter l) j (by rw [hsl]; exact hj)
    rw [this, scatter_getD l (2 * j) (by simp only [ecOf] at hj; omega)]
    rw [if_pos (by omega : 2 * j % 2 = 0), show 2 * j / 2 = j by omega]
  · have hoc : j - ecOf l.length < ocOf l.length := by
      simp only [ecOf, ocOf] at *
      omega
    have := gather_getD_high (m_scatter l) (j - ecOf l.length)
      (by rw [hsl]; exact hoc)
    rw [hsl, show ecOf l.length + (j - ecOf l.length) = j by omega] at this
    rw [this, scatter_getD l (2 * (j - ecOf l.length) + 1)
      (by simp only [ecOf, ocOf] at *; omega)]
    rw [if_neg (by omega : ¬ (2 * (j - ecOf l.length) + 1) % 2 = 0),
      show ecOf l.length + (2 * (j - ecOf l.length) + 1) / 2 = j by omega]

/-- **C8.** For every source range, gather places all even-indexed source
elements, in their relative order, into positions `[0, ⌈n/2⌉)` and all
odd-indexed source elements, in their relative order, into positions
`[⌈n/2⌉, n)`; scatter is the exact inverse permutation, so scatter after
gather and gather after scatter both restore the original sequence
exactly. -/
theorem C8_gather_scatter_inverse (l : List ℝ) :
    (m_gather l).length = l.length ∧ (m_scatter l).length = l.length ∧
    (∀ j, j < ecOf l.length → (m_gather l).getD j 0 = l.getD (2 * j) 0) ∧
    (∀ j, j < ocOf l.length →
      (m_gather l).getD (ecOf l.length + j) 0 = l.getD (2 * j + 1) 0) ∧
    m_scatter (m_gather l) = l ∧ m_gather (m_scatter l) = l :=
  ⟨m_gather_length l, m_scatter_length l,
    fun j hj => gather_getD_low l j hj, fun j hj => gather_getD_high l j hj,
    scatter_gather l, gather_scatter l⟩

/-- Witness for C8 at the 5-element range `[1,2,3,4,5]`. -/
theorem C8_witness :
    (m_gather [1, 2, 3, 4, 5]).getD 1 0 = ([1, 2, 3, 4, 5] : List ℝ).getD 2 0 ∧
    m_scatter (m_gather [1, 2, 3, 4, 5]) = ([1, 2, 3, 4, 5] : List ℝ) ∧
    m_gather (m_scatter [1, 2, 3, 4, 5]) = ([1, 2, 3, 4, 5] : List ℝ) :=
  ⟨(C8_gather_scatter_inverse [1, 2, 3, 4, 5]).2.2.1 1 (by norm_num [ecOf]),
    (C8_gather_scatter_inverse [1, 2, 3, 4, 5]).2.2.2.2.1,
    (C8_gather_scatter_inverse [1, 2, 3, 4, 5]).2.2.2.2.2⟩

end CDF97

end SRNN
